import Mathlib

/-!
# Verification of the treemark tree model and its serializers

A shallow embedding of the core of the treemark repository: the `TreeNode`
entity (`tree_mark/core/entities/tree_node.py`), the JSON
serializer/deserializer (`tree_mark/adapters/serializers/json_serializer.py`),
the markdown serializer/parser
(`tree_mark/adapters/serializers/markdown_serializer.py`), the local
filesystem scanner (`tree_mark/adapters/filesystem/scanner.py`) and the
reconstructor (`tree_mark/scripts/create_from_json.py`).

Python strings are modelled as Lean `String`/`List Char`; Python dictionaries
obtained from JSON documents are modelled by an explicit `Json` syntax tree
with association-list objects; raisable code is modelled with `Option`/
`Except` or, where an exception cannot escape the fragment under study, noted
in the definition's comment.
-/

namespace Treemark

/-! ## Python string primitives

Character-level models of the Python `str` methods used by the serializers:
`strip`, `lstrip('- ')`, `rstrip('/')`, `strip('/')`, `split('/')`,
`splitlines`, `endswith`, and `os.path` helpers.  `isPySpace` is the set of
characters `str.strip()` (and `\s` in `re`) treats as whitespace;
`isLineBreak` is the set of line boundaries of `str.splitlines`.
-/

/-- Characters treated as whitespace by Python's `str.strip()` / `str.isspace()`. -/
def isPySpace (c : Char) : Bool :=
  c = ' ' || (Char.ofNat 0x09 ≤ c && c ≤ Char.ofNat 0x0d) ||
  (Char.ofNat 0x1c ≤ c && c ≤ Char.ofNat 0x1f) ||
  c = Char.ofNat 0x85 || c = Char.ofNat 0xa0 || c = Char.ofNat 0x1680 ||
  (Char.ofNat 0x2000 ≤ c && c ≤ Char.ofNat 0x200a) ||
  c = Char.ofNat 0x2028 || c = Char.ofNat 0x2029 ||
  c = Char.ofNat 0x202f || c = Char.ofNat 0x205f || c = Char.ofNat 0x3000

/-- Line boundaries of Python's `str.splitlines` (besides `"\r\n"`, which is
handled as a single boundary by `splitlinesGo`). -/
def isLineBreak (c : Char) : Bool :=
  c = '\n' || c = '\r' || (Char.ofNat 0x0b ≤ c && c ≤ Char.ofNat 0x0c) ||
  (Char.ofNat 0x1c ≤ c && c ≤ Char.ofNat 0x1e) ||
  c = Char.ofNat 0x85 || c = Char.ofNat 0x2028 || c = Char.ofNat 0x2029

/-- `str.splitlines`, accumulator-based: `acc` holds the current line
reversed; `"\r\n"` counts as a single boundary. -/
def splitlinesGo : List Char → List Char → List (List Char)
  | [], acc => if acc = [] then [] else [acc.reverse]
  | '\r' :: '\n' :: rest, acc => acc.reverse :: splitlinesGo rest []
  | c :: rest, acc =>
    if isLineBreak c then acc.reverse :: splitlinesGo rest []
    else splitlinesGo rest (c :: acc)

/-- Python `str.splitlines()` on the character list of a string. -/
def splitlinesCh (cs : List Char) : List (List Char) := splitlinesGo cs []

/-- Python `str.strip()`: drop leading and trailing whitespace. -/
def pyStripCh (cs : List Char) : List Char :=
  ((cs.dropWhile isPySpace).reverse.dropWhile isPySpace).reverse

/-- Python `str.lstrip('- ')`: drop every leading character in `{'-', ' '}`. -/
def lstripDashSpace (cs : List Char) : List Char :=
  cs.dropWhile (fun c => c = '-' || c = ' ')

/-- Python `str.rstrip('/')`: drop every trailing `'/'`. -/
def rstripSlash (cs : List Char) : List Char :=
  (cs.reverse.dropWhile (fun c => c = '/')).reverse

/-- Python `str.strip('/')`: drop leading and trailing `'/'`. -/
def stripSlashBoth (cs : List Char) : List Char :=
  ((cs.dropWhile (fun c => c = '/')).reverse.dropWhile (fun c => c = '/')).reverse

/-- Python `str.endswith('/')` as a check on the last character. -/
def endsWithSlash (cs : List Char) : Bool :=
  match cs.getLast? with
  | some c => c = '/'
  | none => false

/-- Split a character list at `'/'` (Python `str.split('/')`, which keeps
empty fields). -/
def splitSlashGo : List Char → List Char → List (List Char)
  | [], acc => [acc.reverse]
  | c :: rest, acc =>
    if c = '/' then acc.reverse :: splitSlashGo rest []
    else splitSlashGo rest (c :: acc)

/-- Python `p.split('/')` on a string, as strings. -/
def splitSlash (s : String) : List String :=
  (splitSlashGo s.data []).map String.mk

/-- Number of leading `' '` characters (Python `len(line) - len(line.lstrip(' '))`). -/
def countLeadingSpaces (cs : List Char) : Nat :=
  (cs.takeWhile (fun c => c = ' ')).length

/-- `os.path.join(a, b)` for one POSIX component (`b` is never absolute in the
fragments modelled here except where noted). -/
def posixJoin1 (a b : String) : String :=
  if b.data.head? = some '/' then b
  else if a = "" || endsWithSlash a.data then a ++ b
  else a ++ "/" ++ b

/-- `os.path.join(dest, *parts)` folded over a part list. -/
def posixJoin (dest : String) (parts : List String) : String :=
  parts.foldl posixJoin1 dest

/-- `os.path.dirname` (POSIX): the part before the last `'/'`; a head made
only of slashes is kept as-is, otherwise trailing slashes are stripped. -/
def posixDirname (p : String) : String :=
  let rev := p.data.reverse
  let headRev := rev.dropWhile (fun c => c ≠ '/')
  if headRev = [] then ""
  else if headRev.all (fun c => c = '/') then String.mk headRev.reverse
  else String.mk (headRev.dropWhile (fun c => c = '/')).reverse

/-- `os.path.basename` (POSIX): the part after the last `'/'`. -/
def posixBasename (p : String) : String :=
  String.mk (p.data.reverse.takeWhile (fun c => c ≠ '/')).reverse

/-- `os.path.basename(path) or path`, as used by the local scanner to name a node. -/
def basenameOr (p : String) : String :=
  if posixBasename p = "" then p else posixBasename p

/-- `os.path.splitext(p)`, first component.  The extension starts at the last
`'.'` of the last path component, unless every character of that component
before it is itself a `'.'` (so `".bashrc"` has no extension). -/
def py_splitext_root (s : String) : String :=
  let rev := s.data.reverse
  let baseRev := rev.takeWhile (fun c => c ≠ '/')
  let dirRev := rev.dropWhile (fun c => c ≠ '/')
  let extRev := baseRev.takeWhile (fun c => c ≠ '.')
  let rootRev := baseRev.drop extRev.length
  match rootRev with
  | '.' :: beforeRev =>
    if beforeRev.any (fun c => c ≠ '.') then
      String.mk (dirRev.reverse ++ beforeRev.reverse)
    else s
  | _ => s

/-- Python `suffix`-test `name.endswith(ext)`. -/
def pyEndsWith (s ext : String) : Bool :=
  ext.data.isSuffixOf s.data

/-! ## The tree entity

`tree_mark/core/entities/tree_node.py`: a dataclass with `name`, `path`,
`is_dir`, optional `size` and an ordered `children` list; `add_child`
appends. -/

/-- The `TreeNode` dataclass. -/
inductive TreeNode : Type where
  | mk (name : String) (path : String) (is_dir : Bool) (size : Option Nat)
       (children : List TreeNode)

namespace TreeNode

def name : TreeNode → String
  | .mk n _ _ _ _ => n

def path : TreeNode → String
  | .mk _ p _ _ _ => p

def is_dir : TreeNode → Bool
  | .mk _ _ d _ _ => d

def size : TreeNode → Option Nat
  | .mk _ _ _ s _ => s

def children : TreeNode → List TreeNode
  | .mk _ _ _ _ cs => cs

/-- `add_child` appends to the children list. -/
def add_child : TreeNode → TreeNode → TreeNode
  | .mk n p d s cs, c => .mk n p d s (cs ++ [c])

end TreeNode

/-- Structural induction for `TreeNode` with the child-membership hypothesis. -/
theorem TreeNode.indOn {P : TreeNode → Prop}
    (h : ∀ n p d s cs, (∀ c ∈ cs, P c) → P (TreeNode.mk n p d s cs)) :
    ∀ t, P t
  | .mk n p d s cs => h n p d s cs (fun c hc => TreeNode.indOn h c)
termination_by t => sizeOf t
decreasing_by
  simp only [TreeNode.mk.sizeOf_spec]
  have := List.sizeOf_lt_of_mem hc
  omega

/-! ### Shared tree predicates and transforms -/

mutual

/-- `is_dir = false` implies no children, at every node. -/
def leafInvB : TreeNode → Bool
  | .mk _ _ d _ cs => (d || cs.isEmpty) && leafInvListB cs

def leafInvListB : List TreeNode → Bool
  | [] => true
  | c :: cs => leafInvB c && leafInvListB cs

end

mutual

/-- A tree with `path` rebuilt as the bare `name` and `size` dropped at every
node: exactly the information the lossy export formats retain. -/
def normalizeTree : TreeNode → TreeNode
  | .mk n _ d _ cs => .mk n n d none (normalizeList cs)

def normalizeList : List TreeNode → List TreeNode
  | [] => []
  | c :: cs => normalizeTree c :: normalizeList cs

end

theorem normalizeList_eq_map : ∀ cs, normalizeList cs = cs.map normalizeTree
  | [] => rfl
  | c :: cs => by simp [normalizeList, normalizeList_eq_map cs]

theorem leafInvListB_eq_all : ∀ cs, leafInvListB cs = cs.all leafInvB
  | [] => rfl
  | c :: cs => by simp [leafInvListB, leafInvListB_eq_all cs]

/-! ## JSON documents

A syntax tree for the JSON values the serializers exchange.  Python `dict`s
are association lists (insertion-ordered, keys unique in every document the
code produces); `isinstance(data, dict)` is the `obj` constructor,
`isinstance(data, list)` the `arr` constructor. -/

inductive Json : Type where
  | null : Json
  | bool (b : Bool) : Json
  | num (n : Int) : Json
  | str (s : String) : Json
  | arr (elems : List Json) : Json
  | obj (fields : List (String × Json)) : Json

/-- First-match association lookup: Python `d[k]` / `d.get(k)` on a dict. -/
def jlookup (k : String) : List (String × Json) → Option Json
  | [] => none
  | (k₂, v) :: rest => if k₂ = k then some v else jlookup k rest

/-- Python `k in d`. -/
def jHasKey (k : String) (kvs : List (String × Json)) : Bool :=
  (jlookup k kvs).isSome

/-- Python truthiness of a JSON value (`bool(v)`). -/
def jTruthy : Json → Bool
  | .null => false
  | .bool b => b
  | .num n => n != 0
  | .str s => s != ""
  | .arr xs => !xs.isEmpty
  | .obj kvs => !kvs.isEmpty

/-- `d.get(k, dflt)` restricted to string results.  In the source a present
non-string value would be returned as-is; no document built or consumed by
the theorems below carries a non-string in these positions. -/
def jGetStr (j : Json) (k : String) (dflt : String) : String :=
  match j with
  | .obj kvs =>
    match jlookup k kvs with
    | some (.str s) => s
    | _ => dflt
  | _ => dflt

/-- The list behind `d.get("children") or []`.  A present truthy non-list
value would make the source raise while iterating; that shape is not reached
by the documents the theorems below handle. -/
def jChildrenOf (j : Json) : List Json :=
  match j with
  | .obj kvs =>
    match jlookup "children" kvs with
    | some (.arr xs) => xs
    | _ => []
  | _ => []

theorem jlookup_mem {k : String} : ∀ {kvs : List (String × Json)} {v : Json},
    jlookup k kvs = some v → ∃ k₂, (k₂, v) ∈ kvs
  | [], _, h => by simp [jlookup] at h
  | (k₂, w) :: rest, v, h => by
    by_cases hk : k₂ = k
    · refine ⟨k₂, ?_⟩
      simp [jlookup, hk] at h
      simp [h]
    · simp [jlookup, hk] at h
      obtain ⟨k₃, hm⟩ := jlookup_mem h
      exact ⟨k₃, List.mem_cons_of_mem _ hm⟩

theorem sizeOf_jChildrenOf {j : Json} {c : Json} (hc : c ∈ jChildrenOf j) :
    sizeOf c < sizeOf j := by
  match j with
  | .null | .bool _ | .num _ | .str _ | .arr _ => simp [jChildrenOf] at hc
  | .obj kvs =>
    simp only [jChildrenOf] at hc
    match hl : jlookup "children" kvs with
    | none => rw [hl] at hc; simp at hc
    | some .null | some (.bool _) | some (.num _) | some (.str _)
    | some (.obj _) => rw [hl] at hc; simp at hc
    | some (.arr xs) =>
      rw [hl] at hc
      simp only [] at hc
      obtain ⟨k₂, hm⟩ := jlookup_mem hl
      have h1 : sizeOf c < sizeOf (Json.arr xs) := by
        have := List.sizeOf_lt_of_mem hc
        simp only [Json.arr.sizeOf_spec]
        omega
      have h2 : sizeOf (Json.arr xs) < sizeOf kvs := by
        have := List.sizeOf_lt_of_mem hm
        have hp : sizeOf (Json.arr xs) < sizeOf (k₂, Json.arr xs) := by
          simp only [Prod.mk.sizeOf_spec]; omega
        omega
      simp only [Json.obj.sizeOf_spec]
      omega

/-! ## JSON serializer / deserializer

`tree_mark/adapters/serializers/json_serializer.py`.  The pydantic
soft-validation step of `serialize_to_json` has no effect on the returned
value (a failure is only logged), so it is not represented. -/

mutual

/-- `node_to_tree_dict`: nested dict with `name`, `type`, and — only when the
children list is non-empty — `children`; `path`/`size` are never included.
With `keep_extensions=False` the extension is split off file names. -/
def node_to_tree_dict (node : TreeNode) (keep_extensions : Bool) : Json :=
  match node with
  | .mk name _ is_dir _ cs =>
    let display := if !keep_extensions && !is_dir then py_splitext_root name else name
    let base := [("name", Json.str display),
                 ("type", Json.str (if is_dir then "directory" else "file"))]
    .obj (if cs.isEmpty then base
          else base ++ [("children", Json.arr (tree_dict_list cs keep_extensions))])

def tree_dict_list (cs : List TreeNode) (keep_extensions : Bool) : List Json :=
  match cs with
  | [] => []
  | c :: rest => node_to_tree_dict c keep_extensions :: tree_dict_list rest keep_extensions

end

mutual

/-- `flatten_tree_to_paths`: file paths relative to the node above the root,
joined with `'/'`, in depth-first child order; directories are omitted. -/
def flatten_tree_to_paths (node : TreeNode) (pre : String) : List String :=
  match node with
  | .mk name _ is_dir _ cs =>
    let current := if pre = "" then name else pre ++ "/" ++ name
    if is_dir then flatten_paths_list cs current else [current]

def flatten_paths_list (cs : List TreeNode) (pre : String) : List String :=
  match cs with
  | [] => []
  | c :: rest => flatten_tree_to_paths c pre ++ flatten_paths_list rest pre

end

/-- `serialize_to_json`: the combined document
`{"tree": ..., "flat": [...]}`.  (The function is `async` in the source but
performs no I/O; schema validation failures are logged and ignored.) -/
def serialize_to_json (node : TreeNode) (keep_extensions : Bool) : Json :=
  .obj [("tree", node_to_tree_dict node keep_extensions),
        ("flat", .arr ((flatten_tree_to_paths node "").map Json.str))]

/-- `dict_tree_to_treenode`: rebuild a `TreeNode` from a nested
`name`/`type`/`children` dict; `path` is set to the node's own name and
`size` is never restored.  (On a non-dict the source raises
`AttributeError`; the documents reaching it in the theorems below are
always dicts.) -/
def dict_tree_to_treenode (d : Json) : TreeNode :=
  let name := jGetStr d "name" ""
  let type₂ := jGetStr d "type" "file"
  .mk name name (type₂ = "directory") none
    ((jChildrenOf d).attach.map (fun c => dict_tree_to_treenode c.1))
termination_by sizeOf d
decreasing_by exact sizeOf_jChildrenOf c.2

/-- Replace the first child whose `name` matches `seg` by its image under
`f`, keeping order; `none` when no child matches. -/
def updateFirst (seg : String) (f : TreeNode → TreeNode) :
    List TreeNode → Option (List TreeNode)
  | [] => none
  | c :: rest =>
    if c.name = seg then some (f c :: rest)
    else (updateFirst seg f rest).map (c :: ·)

/-- The `for i, part in enumerate(parts[1:], start=1)` insertion loop of
`flat_list_to_tree`: descend from `node` over the remaining segments,
reusing the first child with a matching name and otherwise appending a new
node whose `is_dir` is true exactly when the segment is not final. -/
def insertSegs (node : TreeNode) : List String → TreeNode
  | [] => node
  | seg :: rest =>
    match node with
    | .mk n p d s cs =>
      match updateFirst seg (fun c => insertSegs c rest) cs with
      | some cs₂ => .mk n p d s cs₂
      | none =>
        let newNode := TreeNode.mk seg (posixJoin1 p seg) (!rest.isEmpty) none []
        .mk n p d s (cs ++ [insertSegs newNode rest])

/-- `parts = [part for part in p.strip("/").split("/") if part]` — equal to
splitting on `'/'` and dropping empty fields. -/
def pathParts (p : String) : List String :=
  (splitSlash (String.mk (stripSlashBoth p.data))).filter (fun s => s ≠ "")

/-- `if root is None: root = TreeNode(name=parts[0], ...)`. -/
def establishRoot (acc : Option TreeNode) (p₀ : String) : TreeNode :=
  match acc with
  | none => .mk p₀ p₀ true none []
  | some r => r

/-- The virtual-root guard: on a first-segment mismatch wrap the current
root under `"__virtual_root__"` unless it is already so named. -/
def maybeWrap (p₀ : String) (root : TreeNode) : TreeNode :=
  if p₀ ≠ root.name then
    (if root.name ≠ "__virtual_root__" then
      .mk "__virtual_root__" "" true none [root]
    else root)
  else root

/-- One iteration of the `for p in flat_list` loop of `flat_list_to_tree`:
establish the root from the first path's first segment, wrap in a
`"__virtual_root__"` on a first-segment mismatch (never re-wrapping a root
already so named), then insert the remaining segments. -/
def flat_step (acc : Option TreeNode) (p : String) : Option TreeNode :=
  match pathParts p with
  | [] => acc
  | p₀ :: rest => some (insertSegs (maybeWrap p₀ (establishRoot acc p₀)) rest)

/-- `flat_list_to_tree`: build a tree from a flat list of file paths; an
empty or all-empty list yields the synthetic `"empty"` directory node. -/
def flat_list_to_tree (flat : List String) : TreeNode :=
  match flat.foldl flat_step none with
  | none => .mk "empty" "" true none []
  | some root => root

/-- String elements of a `flat` JSON array.  A non-list truthy value or a
non-string element makes the source raise (or iterate characters); those
shapes are outside every document the theorems below touch. -/
def jStrList : Json → List String
  | .arr xs => xs.filterMap (fun j => match j with | .str s => some s | _ => none)
  | _ => []

/-- `type` resolution of the legacy branch:
`d.get("type") or ("directory" if d.get("children") else "file")`. -/
def legacyIsDir (kvs : List (String × Json)) : Bool :=
  let dflt : Bool := jTruthy ((jlookup "children" kvs).getD .null)
  match jlookup "type" kvs with
  | some v =>
    if jTruthy v then
      match v with
      | .str s => s == "directory"
      | _ => false
    else dflt
  | none => dflt

/-- The inner `legacy_dict_to_tree` of `deserialize_json_to_tree`: `name`
defaults to `""`, `path` to the name, `type` to directory-if-children. -/
def legacy_dict_to_tree (d : Json) : TreeNode :=
  let name := jGetStr d "name" ""
  let path := match d with
    | .obj kvs => match jlookup "path" kvs with
      | some (.str s) => s
      | _ => name
    | _ => name
  let is_dir := match d with
    | .obj kvs => legacyIsDir kvs
    | _ => false
  .mk name path is_dir none
    ((jChildrenOf d).attach.map (fun c => legacy_dict_to_tree c.1))
termination_by sizeOf d
decreasing_by exact sizeOf_jChildrenOf c.2

/-- `deserialize_json_to_tree` dispatch: combined dict (prefer `tree` over
`flat`), bare list as flat list, any other dict as legacy, anything else the
synthetic `"empty"` node. -/
def deserialize_json_to_tree (data : Json) : TreeNode :=
  match data with
  | .obj kvs =>
    if jHasKey "tree" kvs || jHasKey "flat" kvs then
      if jHasKey "tree" kvs then dict_tree_to_treenode ((jlookup "tree" kvs).getD .null)
      else flat_list_to_tree (jStrList ((jlookup "flat" kvs).getD .null))
    else legacy_dict_to_tree (.obj kvs)
  | .arr xs => flat_list_to_tree (jStrList (.arr xs))
  | _ => .mk "empty" "" true none []

/-- Rename file nodes by `f`, leaving directories, paths, sizes and shape
untouched: the substitution `keep_extensions=False` performs on the nested
tree. -/
def map_file_names (f : String → String) : TreeNode → TreeNode
  | .mk n p d s cs =>
    .mk (if d then n else f n) p d s (cs.attach.map (fun c => map_file_names f c.1))
termination_by t => sizeOf t
decreasing_by
  simp only [TreeNode.mk.sizeOf_spec]
  have := List.sizeOf_lt_of_mem c.2
  omega

/-! ## Reconstructor

`tree_mark/scripts/create_from_json.py`.  Filesystem mutation is modelled as
the trace of actions the call performs (`os.makedirs` and the empty
`write_text_file`); with `dry_run=True` the source only logs, so the trace
is empty.  Reading/parsing the input file and environment-dependent write
failures are outside the model; the only modelled error is the
`RepositoryError("Unsupported JSON format for recreation.")` raised for a
document that is neither dict nor list. -/

/-- One filesystem mutation performed during reconstruction. -/
inductive FsAction : Type where
  | makedirs (path : String)
  | writeFile (path : String) (content : String)

/-- Python `str.strip("/\\")`. -/
def stripSlashBackslash (cs : List Char) : List Char :=
  let isS := fun c => c = '/' || c = '\\'
  ((cs.dropWhile isS).reverse.dropWhile isS).reverse

/-- `_create_from_flat_list`: join each entry's `strip("/").split("/")`
segments onto `dest` (empty segments collapse in `os.path.join`), ensure the
parent directory chain, create the file empty. -/
def createFromFlatList (flat : List String) (dest : String) (dry_run : Bool) :
    List FsAction :=
  flat.flatMap (fun rel =>
    let target := posixJoin dest (splitSlash (String.mk (stripSlashBoth rel.data)))
    let dirpath := posixDirname target
    if dry_run then [] else [.makedirs dirpath, .writeFile target ""])

/-- `_create_from_tree`: recursive descent over the nested dict; directories
are created before their children, files empty after ensuring the parent. -/
def createFromTree (node : Json) (dest : String) (dry_run : Bool) : List FsAction :=
  let name := jGetStr node "name" ""
  let current := if name ≠ "" then posixJoin1 dest name else dest
  if jGetStr node "type" "file" = "directory" then
    (if dry_run then [] else [.makedirs current]) ++
    (jChildrenOf node).attach.flatMap (fun c => createFromTree c.1 current dry_run)
  else
    if dry_run then [] else [.makedirs (posixDirname current), .writeFile current ""]
termination_by sizeOf node
decreasing_by exact sizeOf_jChildrenOf c.2

/-- The inner `legacy_create` of `recreate_from_json`: nodes with a truthy
`path` are materialised from that path (stripped of leading/trailing slashes
and backslashes) joined onto the original `dest`; a node without a truthy
`path` contributes nothing, not even its children. -/
def legacyCreate : Json → String → Bool → List FsAction
  | .obj kvs, dest, dry_run =>
    match (jlookup "path" kvs).getD .null with
    | .str s =>
      if s ≠ "" then
        let target := posixJoin dest (splitSlash (String.mk (stripSlashBackslash s.data)))
        if jGetStr (.obj kvs) "type" "" = "directory" then
          (if dry_run then [] else [.makedirs target]) ++
          (jChildrenOf (.obj kvs)).attach.flatMap (fun c => legacyCreate c.1 dest dry_run)
        else
          if dry_run then [] else [.makedirs (posixDirname target), .writeFile target ""]
      else []
    | _ => []
  | _, _, _ => []
termination_by d _ _ => sizeOf d
decreasing_by exact sizeOf_jChildrenOf c.2

/-- `recreate_from_json` after the document has been read: dict-with-`flat`
first (using `data["flat"] or []`), then bare list, then dict-with-`tree`,
then legacy dict; anything else raises the unsupported-format error. -/
def recreate_from_json (data : Json) (dest : String) (dry_run : Bool) :
    List FsAction × Option String :=
  match data with
  | .obj kvs =>
    if jHasKey "flat" kvs then
      (createFromFlatList (jStrList ((jlookup "flat" kvs).getD .null)) dest dry_run, none)
    else if jHasKey "tree" kvs then
      (createFromTree ((jlookup "tree" kvs).getD .null) dest dry_run, none)
    else (legacyCreate (.obj kvs) dest dry_run, none)
  | .arr xs => (createFromFlatList (jStrList (.arr xs)) dest dry_run, none)
  | _ => ([], some "Unsupported JSON format for recreation.")

/-! ## Lemmas about the JSON serializer -/

theorem tree_dict_list_eq_map (k : Bool) :
    ∀ cs, tree_dict_list cs k = cs.map (node_to_tree_dict · k)
  | [] => rfl
  | c :: cs => by simp [tree_dict_list, tree_dict_list_eq_map k cs]

theorem flatten_paths_list_eq_flatMap (pre : String) :
    ∀ cs, flatten_paths_list cs pre = cs.flatMap (flatten_tree_to_paths · pre)
  | [] => rfl
  | c :: cs => by simp [flatten_paths_list, flatten_paths_list_eq_flatMap pre cs]

/-- Unfolding of `dict_tree_to_treenode` with the children recursion as a map. -/
theorem dict_tree_to_treenode_eq (d : Json) :
    dict_tree_to_treenode d =
      .mk (jGetStr d "name" "") (jGetStr d "name" "")
        (jGetStr d "type" "file" = "directory") none
        ((jChildrenOf d).map dict_tree_to_treenode) := by
  rw [dict_tree_to_treenode]
  simp [List.attach_map_val]

/-- Rebuilding the nested export dict recovers the tree up to the lossy
normalisation (`path` becomes the name, `size` is dropped). -/
theorem dict_tree_roundtrip :
    ∀ t, dict_tree_to_treenode (node_to_tree_dict t true) = normalizeTree t := by
  refine TreeNode.indOn (fun n p d s cs ih => ?_)
  rw [dict_tree_to_treenode_eq]
  have hmap : cs.map (fun c => dict_tree_to_treenode (node_to_tree_dict c true)) =
      normalizeList cs := by
    rw [normalizeList_eq_map]
    exact List.map_congr_left (fun c hc => ih c hc)
  cases cs with
  | nil =>
    cases d <;>
      simp [node_to_tree_dict, jGetStr, jlookup, jChildrenOf, normalizeTree,
        normalizeList, tree_dict_list]
  | cons c₀ cs₀ =>
    have h₀ : dict_tree_to_treenode (node_to_tree_dict c₀ true) = normalizeTree c₀ :=
      ih c₀ (List.mem_cons_self _ _)
    have h₁ : cs₀.map (dict_tree_to_treenode ∘ fun c => node_to_tree_dict c true) =
        normalizeList cs₀ := by
      rw [normalizeList_eq_map]
      exact List.map_congr_left (fun c hc => ih c (List.mem_cons_of_mem _ hc))
    cases d <;>
      simp [node_to_tree_dict, jGetStr, jlookup, jChildrenOf, normalizeTree,
        tree_dict_list_eq_map, List.map_map, normalizeList, h₀, h₁]

/-- C1.  JSON round trip: for a tree in which file nodes are leaves (as every
scanner produces), deserialising the serialised combined document yields the
same tree up to the intended loss: every node keeps its name, its
directory/file classification and its ordered children, while `path` is
rebuilt from the bare name and `size` is gone (which is exactly
`normalizeTree`). -/
theorem json_round_trip_scanner_tree (t : TreeNode) (h : leafInvB t = true) :
    deserialize_json_to_tree (serialize_to_json t true) = normalizeTree t := by
  show deserialize_json_to_tree
      (.obj [("tree", node_to_tree_dict t true),
             ("flat", .arr ((flatten_tree_to_paths t "").map Json.str))]) = _
  rw [deserialize_json_to_tree]
  simp [jHasKey, jlookup, dict_tree_roundtrip t]

/-- Witness for `json_round_trip_scanner_tree` at a two-level tree. -/
theorem json_round_trip_scanner_tree_witness :
    leafInvB (TreeNode.mk "root" "/r" true none
      [TreeNode.mk "f.txt" "/r/f.txt" false (some 3) [],
       TreeNode.mk "sub" "/r/sub" true none
         [TreeNode.mk "g.md" "/r/sub/g.md" false (some 5) []]]) = true ∧
    deserialize_json_to_tree (serialize_to_json (TreeNode.mk "root" "/r" true none
      [TreeNode.mk "f.txt" "/r/f.txt" false (some 3) [],
       TreeNode.mk "sub" "/r/sub" true none
         [TreeNode.mk "g.md" "/r/sub/g.md" false (some 5) []]]) true) =
      normalizeTree (TreeNode.mk "root" "/r" true none
        [TreeNode.mk "f.txt" "/r/f.txt" false (some 3) [],
         TreeNode.mk "sub" "/r/sub" true none
           [TreeNode.mk "g.md" "/r/sub/g.md" false (some 5) []]]) :=
  ⟨rfl, json_round_trip_scanner_tree _ rfl⟩

/-- C4 counterexample.  `deserialize_json_to_tree` applied to the empty JSON
object `{}` does not return the synthetic `"empty"` directory node: `{}` is a
dict without `tree`/`flat`, so it takes the legacy branch, which yields
`name=""`, `is_dir=false` (the `"empty"` fallback fires only for non-dict,
non-list data). -/
theorem deserialize_empty_object_counterexample :
    (deserialize_json_to_tree (Json.obj [])).name = "" ∧
    (deserialize_json_to_tree (Json.obj [])).name ≠ "empty" ∧
    (deserialize_json_to_tree (Json.obj [])).is_dir = false ∧
    (deserialize_json_to_tree (Json.obj [])).children = [] := by
  have h : deserialize_json_to_tree (Json.obj []) = .mk "" "" false none [] := by
    rw [deserialize_json_to_tree]
    rw [legacy_dict_to_tree]
    simp [jHasKey, jlookup, jGetStr, legacyIsDir, jChildrenOf, jTruthy]
  rw [h]
  refine ⟨rfl, by decide, rfl, rfl⟩

/-- C4 amended.  `deserialize_json_to_tree {}` returns the legacy-branch node
with `name=""`, `path=""`, `is_dir=false` and no children; the synthetic
`"empty"` directory node is returned only for data that is neither a dict
nor a list (e.g. `null`). -/
theorem deserialize_empty_object_amended :
    deserialize_json_to_tree (Json.obj []) = TreeNode.mk "" "" false none [] ∧
    deserialize_json_to_tree Json.null = TreeNode.mk "empty" "" true none [] := by
  constructor
  · rw [deserialize_json_to_tree]
    rw [legacy_dict_to_tree]
    simp [jHasKey, jlookup, jGetStr, legacyIsDir, jChildrenOf, jTruthy]
  · rfl

/-! ## Lemmas about the `keep_extensions` flag -/

/-- Unfolding of `map_file_names` with the children recursion as a map. -/
theorem map_file_names_eq (f : String → String) (n p : String) (d : Bool)
    (s : Option Nat) (cs : List TreeNode) :
    map_file_names f (.mk n p d s cs) =
      .mk (if d then n else f n) p d s (cs.map (map_file_names f)) := by
  rw [map_file_names]
  simp [List.attach_map_val]

/-- Exporting with `keep_extensions=False` equals exporting the tree whose
file names were stripped by `os.path.splitext` with `keep_extensions=True`. -/
theorem node_to_tree_dict_false_eq :
    ∀ t, node_to_tree_dict t false =
      node_to_tree_dict (map_file_names py_splitext_root t) true := by
  refine TreeNode.indOn (fun n p d s cs ih => ?_)
  rw [map_file_names_eq]
  have hmap : cs.map (node_to_tree_dict · false) =
      cs.map (fun c => node_to_tree_dict (map_file_names py_splitext_root c) true) :=
    List.map_congr_left (fun c hc => ih c hc)
  cases cs with
  | nil => cases d <;> simp [node_to_tree_dict, tree_dict_list]
  | cons c₀ cs₀ =>
    cases d <;>
      simp [node_to_tree_dict, tree_dict_list_eq_map, List.map_map, Function.comp] <;>
      simpa [tree_dict_list_eq_map, List.map_map, Function.comp] using hmap

/-- C7.  `keep_extensions` asymmetry: with `keep_extensions=False` the
`"flat"` list of the combined document is exactly the one produced with
`keep_extensions=True` (true filenames, extensions intact), and only the
nested `"tree"` part changes — it equals the `keep_extensions=True` export
of the tree whose file-node names (and only those) went through
`os.path.splitext`. -/
theorem keep_extensions_asymmetry (t : TreeNode) :
    serialize_to_json t false =
      Json.obj [("tree", node_to_tree_dict (map_file_names py_splitext_root t) true),
                ("flat", Json.arr ((flatten_tree_to_paths t "").map Json.str))] ∧
    serialize_to_json t true =
      Json.obj [("tree", node_to_tree_dict t true),
                ("flat", Json.arr ((flatten_tree_to_paths t "").map Json.str))] := by
  refine ⟨?_, rfl⟩
  show Json.obj _ = Json.obj _
  rw [node_to_tree_dict_false_eq]

/-! ## Dry-run lemmas for the reconstructor -/

theorem createFromFlatList_dry (flat : List String) (dest : String) :
    createFromFlatList flat dest true = [] := by
  simp [createFromFlatList]

theorem createFromTree_dry : ∀ (j : Json) (dest : String), createFromTree j dest true = []
  | j, dest => by
    have hch : ∀ x ∈ jChildrenOf j, ∀ (d₂ : String), createFromTree x d₂ true = [] :=
      fun x hx d₂ => createFromTree_dry x d₂
    rw [createFromTree]
    split
    · simp only [if_true, List.nil_append, List.flatMap_eq_nil_iff]
      rintro ⟨x, hx⟩ -
      exact hch x hx _
    · rfl
termination_by j => sizeOf j
decreasing_by exact sizeOf_jChildrenOf hx

theorem legacyCreate_dry : ∀ (j : Json) (dest : String), legacyCreate j dest true = []
  | j, dest => by
    have hch : ∀ x ∈ jChildrenOf j, legacyCreate x dest true = [] :=
      fun x hx => legacyCreate_dry x dest
    rcases j with _ | b | nn | sv | xs | kvs
    case obj =>
      rw [legacyCreate]
      rcases hv : (jlookup "path" kvs).getD Json.null with _ | b₂ | n₂ | s₂ | x₂ | k₂ <;>
        simp only [hv] <;> try rfl
      split
      · split
        · simp only [if_true, List.nil_append, List.flatMap_eq_nil_iff]
          rintro ⟨x, hx⟩ -
          exact hch x hx
        · rfl
      · rfl
    all_goals rw [legacyCreate]
    all_goals exact fun kvs₂ h₂ => Json.noConfusion h₂
termination_by j => sizeOf j
decreasing_by exact sizeOf_jChildrenOf hx

/-- C6.  Dry-run frame: with `dry_run=True` the reconstructor performs no
filesystem mutation in any dispatch branch (flat list, bare list, nested
tree, legacy, unsupported) — the action trace is empty for every document
and destination; and with `dry_run=False`, reconstructing
`{"flat": ["x/y.txt"]}` into destination `"D"` creates exactly directory
`"D/x"` and the empty file `"D/x/y.txt"`. -/
theorem dry_run_performs_no_mutation :
    (∀ (data : Json) (dest : String), (recreate_from_json data dest true).1 = []) ∧
    recreate_from_json (Json.obj [("flat", Json.arr [Json.str "x/y.txt"])]) "D" false =
      ([FsAction.makedirs "D/x", FsAction.writeFile "D/x/y.txt" ""], none) := by
  constructor
  · intro data dest
    match data with
    | .obj kvs =>
      rw [recreate_from_json]
      split
      · simp [createFromFlatList_dry]
      · split
        · simp [createFromTree_dry]
        · simp [legacyCreate_dry]
    | .arr xs => simp [recreate_from_json, createFromFlatList_dry]
    | .null | .bool _ | .num _ | .str _ => rfl
  · rfl

/-- C10.  In `recreate_from_json`, an object document whose `"flat"` key maps
to `null` or to an empty list returns with an empty action trace and no
error, even when the same document carries an arbitrary (e.g. non-empty)
`"tree"` value: the flat branch is selected first and iterating the empty
list does nothing. -/
theorem empty_flat_key_short_circuit (dest : String) (tval : Json) :
    recreate_from_json (Json.obj [("flat", Json.null), ("tree", tval)]) dest false
      = ([], none) ∧
    recreate_from_json (Json.obj [("flat", Json.arr []), ("tree", tval)]) dest false
      = ([], none) :=
  ⟨rfl, rfl⟩

/-! ## Flat-list reconstruction: the virtual root -/

mutual

/-- No node anywhere in the tree (the node itself included) is named `v`. -/
def noNameB (v : String) : TreeNode → Bool
  | .mk n _ _ _ cs => (n != v) && noNameListB v cs

def noNameListB (v : String) : List TreeNode → Bool
  | [] => true
  | c :: cs => noNameB v c && noNameListB v cs

end

theorem noNameListB_eq_all (v : String) :
    ∀ cs, noNameListB v cs = cs.all (noNameB v)
  | [] => rfl
  | c :: cs => by simp [noNameListB, noNameListB_eq_all v cs]

theorem noNameB_mk (v n p : String) (d : Bool) (s : Option Nat) (cs : List TreeNode) :
    noNameB v (.mk n p d s cs) = ((n != v) && cs.all (noNameB v)) := by
  rw [noNameB, noNameListB_eq_all]

/-- `updateFirst` preserves any pointwise invariant that `f` preserves. -/
theorem updateFirst_all {Q : TreeNode → Bool} {seg : String} {f : TreeNode → TreeNode}
    (hf : ∀ c, Q c = true → Q (f c) = true) :
    ∀ {cs cs₂ : List TreeNode}, updateFirst seg f cs = some cs₂ →
      cs.all Q = true → cs₂.all Q = true
  | [], _, h, _ => by simp [updateFirst] at h
  | c :: rest, cs₂, h, hall => by
    rw [updateFirst] at h
    simp only [List.all_cons, Bool.and_eq_true] at hall
    by_cases hc : c.name = seg
    · rw [if_pos hc] at h
      injection h with h
      subst h
      simp only [List.all_cons, Bool.and_eq_true]
      exact ⟨hf c hall.1, hall.2⟩
    · rw [if_neg hc] at h
      match hrec : updateFirst seg f rest with
      | none => rw [hrec] at h; simp at h
      | some rest₂ =>
        rw [hrec] at h
        have h₂ : c :: rest₂ = cs₂ := by simpa using h
        subst h₂
        simp only [List.all_cons, Bool.and_eq_true]
        exact ⟨hall.1, updateFirst_all hf hrec hall.2⟩

theorem insertSegs_noName (v : String) :
    ∀ (segs : List String) (t : TreeNode), (∀ s ∈ segs, s ≠ v) →
      noNameB v t = true → noNameB v (insertSegs t segs) = true
  | [], t, _, ht => ht
  | seg :: rest, .mk n p d s cs, hsegs, ht => by
    rw [insertSegs]
    rw [noNameB_mk] at ht
    simp only [Bool.and_eq_true] at ht
    have hrest : ∀ s₂ ∈ rest, s₂ ≠ v := fun s₂ hs₂ => hsegs s₂ (List.mem_cons_of_mem _ hs₂)
    match hup : updateFirst seg (fun c => insertSegs c rest) cs with
    | some cs₂ =>
      rw [noNameB_mk]
      have := updateFirst_all (fun c hc => insertSegs_noName v rest c hrest hc) hup ht.2
      simp [ht.1, this]
    | none =>
      rw [noNameB_mk]
      have hfresh : noNameB v (insertSegs
          (TreeNode.mk seg (posixJoin1 p seg) (!rest.isEmpty) none []) rest) = true := by
        refine insertSegs_noName v rest _ hrest ?_
        rw [noNameB_mk]
        simp [hsegs seg (List.mem_cons_self _ _)]
      simp [ht.1, ht.2, hfresh]

/-- The insertion loop cannot smuggle a forbidden name into the root's
children when no inserted segment carries it. -/
theorem insertSegs_children_noName (v : String) :
    ∀ (segs : List String) (t : TreeNode), (∀ s ∈ segs, s ≠ v) →
      t.children.all (noNameB v) = true →
      (insertSegs t segs).children.all (noNameB v) = true
  | [], _, _, ht => ht
  | seg :: rest, .mk n p d s cs, hsegs, ht => by
    rw [insertSegs]
    have hrest : ∀ s₂ ∈ rest, s₂ ≠ v := fun s₂ hs₂ => hsegs s₂ (List.mem_cons_of_mem _ hs₂)
    match hup : updateFirst seg (fun c => insertSegs c rest) cs with
    | some cs₂ =>
      exact updateFirst_all (fun c hc => insertSegs_noName v rest c hrest hc) hup ht
    | none =>
      have hfresh : noNameB v (insertSegs
          (TreeNode.mk seg (posixJoin1 p seg) (!rest.isEmpty) none []) rest) = true := by
        refine insertSegs_noName v rest _ hrest ?_
        rw [noNameB_mk]
        simp [hsegs seg (List.mem_cons_self _ _)]
      simp only [TreeNode.children, List.all_append, List.all_cons, List.all_nil]
      simp only [TreeNode.children] at ht
      simp [ht, hfresh]

/-- Segments after the first of one flat-list entry. -/
def tailSegs (p : String) : List String := (pathParts p).tail

/-- Invariant carried through the `flat_list_to_tree` fold: no strict
descendant of the running root is named `"__virtual_root__"`. -/
def VRootOk : Option TreeNode → Prop
  | none => True
  | some r => r.children.all (noNameB "__virtual_root__") = true

theorem flat_step_vrootOk {acc : Option TreeNode} {p : String}
    (hp : ∀ s ∈ tailSegs p, s ≠ "__virtual_root__") (hacc : VRootOk acc) :
    VRootOk (flat_step acc p) := by
  rw [flat_step]
  match hparts : pathParts p with
  | [] => exact hacc
  | p₀ :: rest =>
    have hrest : ∀ s ∈ rest, s ≠ "__virtual_root__" := by
      intro s hs
      exact hp s (by rw [tailSegs, hparts]; exact hs)
    show VRootOk (some (insertSegs (maybeWrap p₀ (establishRoot acc p₀)) rest))
    have hok₀ : (establishRoot acc p₀).children.all (noNameB "__virtual_root__") = true := by
      rcases acc with _ | r
      · simp [establishRoot, TreeNode.children]
      · exact hacc
    refine insertSegs_children_noName _ rest _ hrest ?_
    rw [maybeWrap]
    by_cases hmis : p₀ ≠ (establishRoot acc p₀).name
    · rw [if_pos hmis]
      by_cases hv : (establishRoot acc p₀).name ≠ "__virtual_root__"
      · rw [if_pos hv]
        have hr : noNameB "__virtual_root__" (establishRoot acc p₀) = true := by
          rcases hroot : establishRoot acc p₀ with ⟨n, p₂, d₂, s₂, cs₂⟩
          rw [noNameB_mk]
          rw [hroot] at hv hok₀
          simp only [TreeNode.name, ne_eq] at hv
          simp only [TreeNode.children] at hok₀
          simp [hv, hok₀]
        simp [TreeNode.children, hr]
      · rw [if_neg hv]
        exact hok₀
    · rw [if_neg hmis]
      exact hok₀

theorem foldl_flat_step_vrootOk :
    ∀ (ps : List String) (acc : Option TreeNode),
      (∀ p ∈ ps, ∀ s ∈ tailSegs p, s ≠ "__virtual_root__") → VRootOk acc →
      VRootOk (ps.foldl flat_step acc)
  | [], _, _, hacc => hacc
  | p :: ps, acc, hps, hacc => by
    rw [List.foldl_cons]
    refine foldl_flat_step_vrootOk ps _ (fun q hq => hps q (List.mem_cons_of_mem _ hq)) ?_
    exact flat_step_vrootOk (hps p (List.mem_cons_self _ _)) hacc

/-- C3 counterexample.  On `["a/x.txt", "b/y.txt"]` the mismatched second
path does not become a directory `"b"` containing `y.txt`: the insertion
loop always skips a path's first segment (it is taken to be the root's
name), so `y.txt` is attached as a file directly under the virtual root and
no node named `"b"` exists anywhere. -/
theorem flat_list_mismatched_roots_counterexample :
    flat_list_to_tree ["a/x.txt", "b/y.txt"] =
      TreeNode.mk "__virtual_root__" "" true none
        [TreeNode.mk "a" "a" true none [TreeNode.mk "x.txt" "a/x.txt" false none []],
         TreeNode.mk "y.txt" "y.txt" false none []] ∧
    ((flat_list_to_tree ["a/x.txt", "b/y.txt"]).children.all
      (fun c => c.name != "b")) = true ∧
    ((flat_list_to_tree ["a/x.txt", "b/y.txt"]).children.map TreeNode.name)
      = ["a", "y.txt"] :=
  ⟨rfl, rfl, rfl⟩

/-- C3 amended.  `flat_list_to_tree` introduces the synthetic
`"__virtual_root__"` at most once — the previously built root is reparented
under it on the first mismatch and later mismatched paths are attached to
the existing virtual root: provided no path carries `"__virtual_root__"` as
a non-first segment, no strict descendant of the returned root bears that
name.  Each path is inserted by descending from the current root over its
segments *after the first* (the first segment is always treated as the
root's name and never creates a node), creating directory nodes for
non-final segments not already present and a file node for the final one,
so `["a/x.txt", "b/y.txt"]` yields the virtual root with child directory
`"a"` (containing `x.txt`) and child *file* `y.txt` attached directly. -/
theorem flat_list_virtual_root_once (ps : List String)
    (h : ∀ p ∈ ps, ∀ s ∈ tailSegs p, s ≠ "__virtual_root__") :
    (flat_list_to_tree ps).children.all (noNameB "__virtual_root__") = true := by
  have := foldl_flat_step_vrootOk ps none h trivial
  rw [flat_list_to_tree]
  match hfold : ps.foldl flat_step none with
  | none => rfl
  | some r => rw [hfold] at this; exact this

/-- Witness for `flat_list_virtual_root_once` on the two-path example. -/
theorem flat_list_virtual_root_once_witness :
    (∀ p ∈ ["a/x.txt", "b/y.txt"], ∀ s ∈ tailSegs p, s ≠ "__virtual_root__") ∧
    (flat_list_to_tree ["a/x.txt", "b/y.txt"]).children.all
      (noNameB "__virtual_root__") = true :=
  ⟨by decide, flat_list_virtual_root_once _ (by decide)⟩

/-! ## Local filesystem scanner

`tree_mark/adapters/filesystem/scanner.py`.  The filesystem is an abstract
finite tree: a file carries its byte size and a flag saying whether statting
it (`os.path.getsize`) succeeds; a directory carries its entries in
enumeration order and a flag saying whether opening it (`os.scandir`)
succeeds.  A failing stat raises `PermissionError`; a failing `os.scandir`
is caught inside `_scan_sync` itself, which then returns the directory node
with no children.  Entries obtained from a successful `os.scandir` exist, so
`os.path.exists` is only modelled at the top level (`scan` on `none`).
The `async` fan-out changes nothing observable (children are reassembled in
enumeration order) and is not represented. -/

inductive FS : Type where
  | file (size : Nat) (readable : Bool)
  | dir (entries : List (String × FS)) (readable : Bool)

/-- The one exception kind raised inside `_scan_sync` in this model. -/
inductive OsError : Type where
  | permissionError

/-- `entry.is_file()`. -/
def FS.isFile : FS → Bool
  | .file _ _ => true
  | .dir _ _ => false

/-- Truthiness of the optional extension-filter lists (an empty list is
falsy, so it disables the filter). -/
def truthyList : Option (List String) → Bool
  | none => false
  | some l => !l.isEmpty

/-- `any(entry.name.endswith(ext) for ext in exts)`. -/
def anySuffix (n : String) : Option (List String) → Bool
  | none => false
  | some l => l.any (fun ext => pyEndsWith n ext)

/-- The two `continue`-guards of `_scan_sync`: filters apply only to files,
never to directories. -/
def skipByFilters (n : String) (cfs : FS) (inc exc : Option (List String)) : Bool :=
  (truthyList inc && cfs.isFile && !anySuffix n inc) ||
  (truthyList exc && cfs.isFile && anySuffix n exc)

mutual

/-- `LocalFileSystemScanner._scan_sync`:  stat the target (a failing stat on
a file raises), build the node, and for a directory open it — a
`PermissionError` from `os.scandir` is caught and the childless node
returned — then recurse over the entries. -/
def scan_sync (path : String) (fs : FS) (inc exc : Option (List String)) :
    Except OsError TreeNode :=
  match fs with
  | .file sz readable =>
    if readable then .ok (.mk (basenameOr path) path false (some sz) [])
    else .error .permissionError
  | .dir entries readable =>
    if readable then
      .ok (.mk (basenameOr path) path true none (scanChildren path entries inc exc))
    else .ok (.mk (basenameOr path) path true none [])

/-- The `for entry in entries` loop: empty names are skipped, filtered files
are skipped, and a child whose recursive scan raises `PermissionError` is
skipped while traversal continues. -/
def scanChildren (path : String) (entries : List (String × FS))
    (inc exc : Option (List String)) : List TreeNode :=
  match entries with
  | [] => []
  | (n, cfs) :: rest =>
    if n = "" then scanChildren path rest inc exc
    else if skipByFilters n cfs inc exc then scanChildren path rest inc exc
    else
      match scan_sync (posixJoin1 path n) cfs inc exc with
      | .ok c => c :: scanChildren path rest inc exc
      | .error _ => scanChildren path rest inc exc

end

/-- `LocalFileSystemScanner.scan`: a missing target or an exception escaping
`_scan_sync` is wrapped in a fatal `ScannerError`. -/
def scan (path : String) (fs : Option FS) (inc exc : Option (List String)) :
    Except String TreeNode :=
  match fs with
  | none => .error "ScannerError: Path does not exist"
  | some f =>
    match scan_sync path f inc exc with
    | .ok node => .ok node
    | .error _ => .error "ScannerError: PermissionError"

/-! ## Scanner theorems -/

mutual

theorem scan_sync_leafInv : ∀ (fs : FS) (path : String)
    (inc exc : Option (List String)) (t : TreeNode),
    scan_sync path fs inc exc = Except.ok t → leafInvB t = true
  | .file sz readable, path, inc, exc, t, h => by
    rw [scan_sync] at h
    split at h
    · injection h with h
      subst h
      simp [leafInvB, leafInvListB]
    · exact absurd h (by simp)
  | .dir entries readable, path, inc, exc, t, h => by
    rw [scan_sync] at h
    split at h
    · injection h with h
      subst h
      rw [leafInvB]
      simp only [Bool.true_or, Bool.true_and]
      exact scanChildren_leafInv entries path inc exc
    · injection h with h
      subst h
      simp [leafInvB, leafInvListB]

theorem scanChildren_leafInv : ∀ (entries : List (String × FS)) (path : String)
    (inc exc : Option (List String)),
    leafInvListB (scanChildren path entries inc exc) = true
  | [], _, _, _ => rfl
  | (n, cfs) :: rest, path, inc, exc => by
    rw [scanChildren]
    split
    · exact scanChildren_leafInv rest path inc exc
    · split
      · exact scanChildren_leafInv rest path inc exc
      · split
        · rw [leafInvListB]
          have h₁ := scan_sync_leafInv cfs (posixJoin1 path n) inc exc _ (by assumption)
          simp [h₁, scanChildren_leafInv rest path inc exc]
        · exact scanChildren_leafInv rest path inc exc

end

/-- C5 amended.  Every tree returned by the local filesystem scanner
satisfies the file-node leaf invariant: `is_dir = false` implies an empty
children sequence at every node.  (The other producers do not guarantee it —
see the counterexample, where the markdown parser attaches a child to a file
node; `flat_list_to_tree` and the JSON deserialiser likewise follow whatever
the input encodes.) -/
theorem scanner_leaf_invariant (fs : FS) (path : String)
    (inc exc : Option (List String)) (t : TreeNode)
    (h : scan_sync path fs inc exc = Except.ok t) : leafInvB t = true :=
  scan_sync_leafInv fs path inc exc t h

/-- Witness for `scanner_leaf_invariant` at a concrete directory. -/
theorem scanner_leaf_invariant_witness :
    scan_sync "r" (FS.dir [("a.py", FS.file 7 true), ("sub", FS.dir [] true)] true)
        none none =
      Except.ok (TreeNode.mk "r" "r" true none
        [TreeNode.mk "a.py" "r/a.py" false (some 7) [],
         TreeNode.mk "sub" "r/sub" true none []]) ∧
    leafInvB (TreeNode.mk "r" "r" true none
      [TreeNode.mk "a.py" "r/a.py" false (some 7) [],
       TreeNode.mk "sub" "r/sub" true none []]) = true :=
  ⟨rfl, scanner_leaf_invariant
    (FS.dir [("a.py", FS.file 7 true), ("sub", FS.dir [] true)] true) "r" none none _ rfl⟩

/-- C8 counterexample.  A permission failure opening the *top-level* scan
target directory does not abort the scan: `os.scandir`'s `PermissionError`
is caught inside `_scan_sync` at every depth, the top level included, so the
scan returns the childless directory node instead of a fatal error. -/
theorem scan_top_permission_counterexample :
    scan "root" (some (FS.dir [("a", FS.file 3 true)] false)) none none =
      Except.ok (TreeNode.mk "root" "root" true none []) :=
  rfl

/-- C8 amended.  The actual asymmetry of the local scanner: (1) a
permission-denied `os.scandir` on a directory degrades gracefully at every
depth, the top level included — the directory node is returned with no
children; (2) a failing stat of a file raises `PermissionError`, which (3)
at the top level aborts the scan as a fatal `ScannerError`, as does (4) a
nonexistent target, while (5) during recursion a child whose scan raises
`PermissionError` is skipped and its siblings are kept. -/
theorem scan_permission_asymmetry :
    (∀ (path : String) (entries : List (String × FS)) (inc exc : Option (List String)),
      scan_sync path (FS.dir entries false) inc exc =
        Except.ok (TreeNode.mk (basenameOr path) path true none [])) ∧
    (∀ (path : String) (sz : Nat) (inc exc : Option (List String)),
      scan_sync path (FS.file sz false) inc exc = Except.error OsError.permissionError) ∧
    (∀ (path : String) (inc exc : Option (List String)),
      scan path none inc exc = Except.error "ScannerError: Path does not exist") ∧
    (∀ (path : String) (sz : Nat) (inc exc : Option (List String)),
      scan path (some (FS.file sz false)) inc exc =
        Except.error "ScannerError: PermissionError") ∧
    (∀ (path : String) (pre post : List (String × FS)) (n : String) (sz : Nat)
        (inc exc : Option (List String)),
      scanChildren path (pre ++ (n, FS.file sz false) :: post) inc exc =
        scanChildren path (pre ++ post) inc exc) := by
  refine ⟨fun _ _ _ _ => rfl, fun _ _ _ _ => rfl, fun _ _ _ => rfl,
    fun _ _ _ _ => rfl, fun path pre post n sz inc exc => ?_⟩
  induction pre with
  | nil =>
    simp only [List.nil_append]
    rw [scanChildren]
    split
    · rfl
    · split
      · rfl
      · rw [scan_sync]
        simp
  | cons e rest ih =>
    obtain ⟨n₂, cfs₂⟩ := e
    simp only [List.cons_append]
    rw [scanChildren]
    conv_rhs => rw [scanChildren]
    split
    · exact ih
    · split
      · exact ih
      · split <;> rw [ih]

/-! ## Markdown serializer / parser

`tree_mark/adapters/serializers/markdown_serializer.py`.  One line per node,
two spaces of indent per level, `"- "` bullet, trailing `'/'` for
directories.  The parser keeps a stack of `(depth, node)`; in the source a
node is attached to its parent (the stack top after popping) at creation
time and mutated in place afterwards, which is modelled here by deferring
the attachment to the moment a frame is popped — by then its children are
complete, and the frame below it at pop time is the same frame that was on
top at creation time (stack discipline), so the built tree is identical.
`parse_markdown_to_tree` returns `none` where the source raises `IndexError`
(`stack[-1]` on the emptied stack). -/

/-- `'  ' * depth`. -/
def mdIndent (depth : Nat) : String := String.mk (List.replicate (2 * depth) ' ')

mutual

/-- `node_to_markdown_lines`. -/
def node_to_markdown_lines (node : TreeNode) (depth : Nat) (keep_extensions : Bool) :
    List String :=
  match node with
  | .mk name _ is_dir _ cs =>
    let display := if !keep_extensions && !is_dir then py_splitext_root name else name
    let entry := mdIndent depth ++ "- " ++ display ++ (if is_dir then "/" else "")
    entry :: markdown_lines_list cs (depth + 1) keep_extensions

def markdown_lines_list (cs : List TreeNode) (depth : Nat) (keep : Bool) : List String :=
  match cs with
  | [] => []
  | c :: rest => node_to_markdown_lines c depth keep ++ markdown_lines_list rest depth keep

end

/-- `"\n".join(lines)` at the character level. -/
def joinNl : List (List Char) → List Char
  | [] => []
  | [l] => l
  | l :: ls => l ++ '\n' :: joinNl ls

/-- `serialize_to_markdown` (async in the source, but pure). -/
def serialize_to_markdown (node : TreeNode) (keep_extensions : Bool) : String :=
  String.mk (joinNl ((node_to_markdown_lines node 0 keep_extensions).map String.data))

/-- A parser stack entry: the recorded depth and the node under
construction (children collected in reverse). -/
structure MdFrame : Type where
  depth : Nat
  name : String
  is_dir : Bool
  childrenRev : List TreeNode

/-- Completing a frame yields `TreeNode(name=name_part, path=name_part, is_dir=...)`
with the collected children. -/
def closeFrame (f : MdFrame) : TreeNode :=
  .mk f.name f.name f.is_dir none f.childrenRev.reverse

def frameAddChild (f : MdFrame) (c : TreeNode) : MdFrame :=
  { f with childrenRev := c :: f.childrenRev }

/-- The popping loop below the top frame `f`: while `f`'s recorded depth is
`≥ depth`, pop it, folding its completed node into the next frame, which is
inspected next; `none` is the `IndexError` of `stack[-1]` once the stack has
been emptied. -/
def popGEAux (depth : Nat) (f : MdFrame) : List MdFrame → Option (List MdFrame)
  | [] => if depth ≤ f.depth then none else some [f]
  | g :: rs =>
    if depth ≤ f.depth then popGEAux depth (frameAddChild g (closeFrame f)) rs
    else some (f :: g :: rs)

/-- `while stack and stack[-1][0] >= depth: stack.pop()` followed by
`stack[-1]`: popping a frame attaches its completed node to the frame below. -/
def popGE (depth : Nat) : List MdFrame → Option (List MdFrame)
  | [] => none
  | f :: rest => popGEAux depth f rest

/-- `depth = leading // 2` where `leading` counts `' '` only
(`len(line) - len(line.lstrip(' '))`). -/
def lineDepth (l : List Char) : Nat := countLeadingSpaces l / 2

/-- `line.strip().lstrip('- ').rstrip('/')`. -/
def lineName (l : List Char) : List Char := rstripSlash (lstripDashSpace (pyStripCh l))

/-- `line.strip().endswith('/')`. -/
def lineIsDir (l : List Char) : Bool := endsWithSlash (pyStripCh l)

/-- End of input, from the top frame downwards: fold each completed node
into the frame below; the bottom frame closes into the returned root. -/
def flushAux (f : MdFrame) : List MdFrame → TreeNode
  | [] => closeFrame f
  | g :: rs => flushAux (frameAddChild g (closeFrame f)) rs

/-- End of input: `return root`. -/
def flushStack : List MdFrame → Option TreeNode
  | [] => none
  | f :: rest => some (flushAux f rest)

/-- The `for line in lines[1:]` loop of `parse_markdown_to_tree`. -/
def processLines : List (List Char) → List MdFrame → Option TreeNode
  | [], st => flushStack st
  | l :: ls, st =>
    match popGE (lineDepth l) st with
    | none => none
    | some st₂ =>
      processLines ls (⟨lineDepth l, String.mk (lineName l), lineIsDir l, []⟩ :: st₂)

/-- `re.match(r'\s*- (.+)', root_line)`, returning group 1. -/
def rootMatch (l : List Char) : Option (List Char) :=
  match l.dropWhile isPySpace with
  | '-' :: ' ' :: rest => if rest.isEmpty then none else some rest
  | _ => none

/-- `lines = [ln for ln in md_text.splitlines() if ln.strip()]`. -/
def contentLines (md : String) : List (List Char) :=
  (splitlinesCh md.data).filter (fun l => pyStripCh l ≠ [])

/-- `parse_markdown_to_tree`: skip blank lines, read the root from the first
line (regex with a strip-based fallback), then run the depth-stack loop.
`none` models the uncaught `IndexError`. -/
def parse_markdown_to_tree (md : String) : Option TreeNode :=
  match contentLines md with
  | [] => some (.mk "empty" "" true none [])
  | l₀ :: rest =>
    let root_name := match rootMatch l₀ with
      | some g => String.mk (rstripSlash g)
      | none => String.mk (rstripSlash (pyStripCh l₀))
    processLines rest [⟨0, root_name, endsWithSlash (pyStripCh l₀), []⟩]

/-! ## Markdown parser: success and failure of the depth stack

The parser stack always has the root frame, of recorded depth `0`, at the
bottom.  A line whose computed depth is at least `1` can never empty the
stack; a line of depth `0` always does, reproducing the `IndexError`. -/

theorem popGEAux_zero : ∀ (rs : List MdFrame) (f : MdFrame), popGEAux 0 f rs = none
  | [], f => by rw [popGEAux]; simp
  | g :: rs, f => by
    rw [popGEAux]
    simp [popGEAux_zero rs]

theorem popGE_zero : ∀ (st : List MdFrame), popGE 0 st = none
  | [] => rfl
  | f :: rest => popGEAux_zero rest f

theorem popGEAux_pos : ∀ (rs : List MdFrame) (f base : MdFrame) (d : Nat),
    base.depth = 0 → 1 ≤ d →
    ∃ init₂ base₂, popGEAux d f (rs ++ [base]) = some (init₂ ++ [base₂]) ∧
      base₂.depth = 0
  | [], f, base, d, hb, hd => by
    rw [List.nil_append, popGEAux]
    by_cases hf : d ≤ f.depth
    · have hdep : (frameAddChild base (closeFrame f)).depth = 0 := hb
      rw [if_pos hf, popGEAux, if_neg (by omega)]
      exact ⟨[], _, rfl, hdep⟩
    · rw [if_neg hf]
      exact ⟨[f], base, rfl, hb⟩
  | g :: rs, f, base, d, hb, hd => by
    rw [List.cons_append, popGEAux]
    by_cases hf : d ≤ f.depth
    · rw [if_pos hf]
      exact popGEAux_pos rs _ base d hb hd
    · rw [if_neg hf]
      exact ⟨f :: g :: rs, base, rfl, hb⟩

theorem popGE_pos (init : List MdFrame) (base : MdFrame) (d : Nat)
    (hb : base.depth = 0) (hd : 1 ≤ d) :
    ∃ init₂ base₂, popGE d (init ++ [base]) = some (init₂ ++ [base₂]) ∧
      base₂.depth = 0 := by
  match init with
  | [] =>
    rw [List.nil_append, popGE, popGEAux, if_neg (by omega)]
    exact ⟨[], base, rfl, hb⟩
  | f :: init₂ =>
    rw [List.cons_append, popGE]
    exact popGEAux_pos init₂ f base d hb hd

theorem processLines_some : ∀ (lines : List (List Char)) (init : List MdFrame)
    (base : MdFrame), base.depth = 0 → (∀ l ∈ lines, 1 ≤ lineDepth l) →
    (processLines lines (init ++ [base])).isSome = true
  | [], init, base, _, _ => by cases init <;> simp [processLines, flushStack]
  | l :: ls, init, base, hb, hall => by
    rw [processLines]
    obtain ⟨init₂, base₂, hpop, hb₂⟩ :=
      popGE_pos init base (lineDepth l) hb (hall l (List.mem_cons_self _ _))
    rw [hpop]
    have := processLines_some ls
      (⟨lineDepth l, String.mk (lineName l), lineIsDir l, []⟩ :: init₂) base₂ hb₂
      (fun l₂ hl₂ => hall l₂ (List.mem_cons_of_mem _ hl₂))
    simpa using this

theorem processLines_none : ∀ (lines : List (List Char)) (init : List MdFrame)
    (base : MdFrame), base.depth = 0 → ¬(∀ l ∈ lines, 1 ≤ lineDepth l) →
    processLines lines (init ++ [base]) = none
  | [], _, _, _, hno => absurd (by simp) hno
  | l :: ls, init, base, hb, hno => by
    rw [processLines]
    by_cases hd : 1 ≤ lineDepth l
    · obtain ⟨init₂, base₂, hpop, hb₂⟩ := popGE_pos init base (lineDepth l) hb hd
      rw [hpop]
      have hno₂ : ¬(∀ l₂ ∈ ls, 1 ≤ lineDepth l₂) := by
        intro hall
        exact hno (by
          intro l₂ hl₂
          rcases List.mem_cons.mp hl₂ with h | h
          · exact h ▸ hd
          · exact hall l₂ h)
      have := processLines_none ls
        (⟨lineDepth l, String.mk (lineName l), lineIsDir l, []⟩ :: init₂) base₂ hb₂ hno₂
      simpa using this
    · have hd0 : lineDepth l = 0 := by omega
      rw [hd0, popGE_zero]

/-- C9 counterexample.  The parser is not total: a second line whose
computed depth is `0` (at the root's depth) pops the root frame off the
stack, and the following `stack[-1]` raises `IndexError` — modelled as
`none`.  `"- a\n- b"` is such an input. -/
theorem markdown_depth_zero_counterexample :
    parse_markdown_to_tree "- a\n- b" = none := rfl

/-- C9 amended.  `parse_markdown_to_tree` returns a tree exactly when every
non-first non-blank line has at least two leading spaces (computed depth at
least `1`): depth gaps and irregular indentation are accepted, with nodes
attached to whatever parent remains on the depth stack, but a non-first line
at depth `0` empties the stack and the parse raises `IndexError`. -/
theorem markdown_parser_totality_amended (md : String) :
    (parse_markdown_to_tree md).isSome = true ↔
      ∀ l ∈ (contentLines md).drop 1, 2 ≤ countLeadingSpaces l := by
  rw [parse_markdown_to_tree]
  match hcl : contentLines md with
  | [] => simp
  | l₀ :: rest =>
    have hiff : ∀ l : List Char, 1 ≤ lineDepth l ↔ 2 ≤ countLeadingSpaces l := by
      intro l
      rw [lineDepth]
      omega
    simp only [List.drop_succ_cons, List.drop_zero]
    constructor
    · intro hsome l hl
      rw [← hiff]
      by_contra hlt
      have hno : ¬(∀ l₂ ∈ rest, 1 ≤ lineDepth l₂) := fun hall => hlt (hall l hl)
      have := processLines_none rest []
        ⟨0, match rootMatch l₀ with
            | some g => String.mk (rstripSlash g)
            | none => String.mk (rstripSlash (pyStripCh l₀)),
          endsWithSlash (pyStripCh l₀), []⟩ rfl hno
      rw [List.nil_append] at this
      rw [this] at hsome
      simp at hsome
    · intro hall
      have := processLines_some rest []
        ⟨0, match rootMatch l₀ with
            | some g => String.mk (rstripSlash g)
            | none => String.mk (rstripSlash (pyStripCh l₀)),
          endsWithSlash (pyStripCh l₀), []⟩ rfl
        (fun l hl => (hiff l).mpr (hall l hl))
      rwa [List.nil_append] at this

/-- C5 counterexample.  The markdown parser — one of the public producers the
claim quantifies over — can return a tree violating the file-node leaf
invariant: in `"- f\n  - c"` the root line lacks the trailing `'/'`, so the
root is a file, yet the indented line attaches a child to it. -/
theorem leaf_invariant_counterexample :
    parse_markdown_to_tree "- f\n  - c" =
      some (TreeNode.mk "f" "f" false none [TreeNode.mk "c" "c" false none []]) ∧
    leafInvB (TreeNode.mk "f" "f" false none
      [TreeNode.mk "c" "c" false none []]) = false :=
  ⟨rfl, rfl⟩

/-- C2 counterexample.  A child named `"-a"` — no `'/'`, no leading or
trailing whitespace, so permitted by the claim — does not survive the
markdown round trip: `lstrip('- ')` strips every leading `'-'` and `' '`
from the parsed line, so the child comes back named `"a"`. -/
theorem markdown_round_trip_counterexample :
    parse_markdown_to_tree (serialize_to_markdown
      (TreeNode.mk "r" "r" true none [TreeNode.mk "-a" "-a" false none []]) true) =
      some (TreeNode.mk "r" "r" true none [TreeNode.mk "a" "a" false none []]) ∧
    ("a" : String) ≠ "-a" :=
  ⟨rfl, by decide⟩

/-! ## Markdown round trip: names that survive the grammar

The serialized line for a node is `indent ++ "- " ++ name (++ "/")`.  The
parser recovers the name with `strip()`, `lstrip('- ')` and `rstrip('/')`,
so a name survives exactly when it is non-empty, free of `'/'` and of line
boundaries, starts with neither whitespace nor `'-'`, and does not end in
whitespace. -/

/-- A node name that the markdown grammar transports faithfully. -/
def goodNameCh (nm : List Char) : Bool :=
  !nm.isEmpty &&
  nm.all (fun c => !isLineBreak c && c ≠ '/') &&
  (match nm.head? with
   | some c => !isPySpace c && c ≠ '-'
   | none => false) &&
  (match nm.getLast? with
   | some c => !isPySpace c
   | none => false)

def goodNameB (s : String) : Bool := goodNameCh s.data

mutual

/-- Every name in the tree is markdown-transportable. -/
def goodTreeB : TreeNode → Bool
  | .mk n _ _ _ cs => goodNameB n && goodTreeListB cs

def goodTreeListB : List TreeNode → Bool
  | [] => true
  | c :: cs => goodTreeB c && goodTreeListB cs

end

theorem goodTreeListB_eq_all : ∀ cs, goodTreeListB cs = cs.all goodTreeB
  | [] => rfl
  | c :: cs => by simp [goodTreeListB, goodTreeListB_eq_all cs]

/-- The characters of the markdown line a node of depth `d` serializes to. -/
def entryCh (d : Nat) (nm : List Char) (isd : Bool) : List Char :=
  List.replicate (2 * d) ' ' ++ '-' :: ' ' :: (nm ++ (if isd then ['/'] else []))

theorem str_data_append : ∀ (a b : String), (a ++ b).data = a.data ++ b.data
  | ⟨_⟩, ⟨_⟩ => rfl

theorem mk_data (s : String) : String.mk s.data = s := rfl

/-- The line list of the serializer, at the character level. -/
def linesCh (t : TreeNode) (d : Nat) : List (List Char) :=
  (node_to_markdown_lines t d true).map String.data

theorem mdlines_list_data (d : Nat) :
    ∀ cs, (markdown_lines_list cs d true).map String.data =
      cs.flatMap (fun c => linesCh c d)
  | [] => rfl
  | c :: rest => by
    simp [markdown_lines_list, mdlines_list_data d rest, linesCh]

theorem linesCh_unfold (n p : String) (isd : Bool) (s : Option Nat)
    (cs : List TreeNode) (d : Nat) :
    linesCh (.mk n p isd s cs) d =
      entryCh d n.data isd :: cs.flatMap (fun c => linesCh c (d + 1)) := by
  rw [linesCh, node_to_markdown_lines]
  simp only [Bool.not_true, Bool.false_and, Bool.false_eq_true, if_neg, ite_false,
    List.map_cons, mdlines_list_data]
  congr 1
  show (mdIndent d ++ "- " ++ n ++ (if isd then "/" else "")).data = _
  rw [str_data_append, str_data_append, str_data_append]
  rw [entryCh]
  cases isd <;> simp [mdIndent]

/-! ### Generic character-list lemmas -/

theorem dropWhile_replicate_cons {p : Char → Bool} (k : Nat) {a c : Char}
    (rest : List Char) (ha : p a = true) (hc : p c = false) :
    (List.replicate k a ++ c :: rest).dropWhile p = c :: rest := by
  induction k with
  | zero => simp [List.dropWhile_cons, hc]
  | succ k ih => simp [List.replicate_succ, List.dropWhile_cons, ha, ih]

theorem takeWhile_replicate_cons {p : Char → Bool} (k : Nat) {a c : Char}
    (rest : List Char) (ha : p a = true) (hc : p c = false) :
    (List.replicate k a ++ c :: rest).takeWhile p = List.replicate k a := by
  induction k with
  | zero => simp [List.takeWhile_cons, hc]
  | succ k ih => simp [List.replicate_succ, List.takeWhile_cons, ha, ih]

theorem dropWhile_head_false {p : Char → Bool} :
    ∀ {l : List Char}, (∀ c, l.head? = some c → p c = false) → l.dropWhile p = l
  | [], _ => rfl
  | c :: rest, h => by
    have := h c rfl
    simp [List.dropWhile_cons, this]

/-- `rstrip` with a predicate false at the last character is the identity. -/
theorem rstrip_noop {p : Char → Bool} (l : List Char)
    (h : ∀ c, l.getLast? = some c → p c = false) :
    (l.reverse.dropWhile p).reverse = l := by
  rw [dropWhile_head_false, List.reverse_reverse]
  intro c hc
  exact h c (by rwa [List.head?_reverse] at hc)

/-! ### Facts extracted from `goodNameCh` -/

theorem good_ne_nil {nm : List Char} (hg : goodNameCh nm = true) : nm ≠ [] := by
  intro h
  subst h
  simp [goodNameCh] at hg

theorem good_all {nm : List Char} (hg : goodNameCh nm = true) :
    ∀ c ∈ nm, isLineBreak c = false ∧ c ≠ '/' := by
  intro c hc
  rw [goodNameCh] at hg
  simp only [Bool.and_eq_true, List.all_eq_true] at hg
  have := hg.1.1.2 c hc
  simp only [Bool.and_eq_true, Bool.not_eq_true', decide_eq_true_eq] at this
  exact this

theorem good_head {nm : List Char} (hg : goodNameCh nm = true) :
    ∀ c, nm.head? = some c → isPySpace c = false ∧ c ≠ '-' := by
  intro c hc
  rw [goodNameCh] at hg
  simp only [Bool.and_eq_true] at hg
  have h₂ := hg.1.2
  rw [hc] at h₂
  simp only [Bool.and_eq_true, Bool.not_eq_true', decide_eq_true_eq] at h₂
  exact h₂

theorem good_last {nm : List Char} (hg : goodNameCh nm = true) :
    ∀ c, nm.getLast? = some c → isPySpace c = false := by
  intro c hc
  rw [goodNameCh] at hg
  simp only [Bool.and_eq_true] at hg
  have h₂ := hg.2
  rw [hc] at h₂
  simpa using h₂

/-! ### Reading one serialized line back -/

theorem entry_getLast {nm : List Char} (hg : goodNameCh nm = true) (isd : Bool) :
    ∃ c, ('-' :: ' ' :: (nm ++ (if isd then ['/'] else []))).getLast? = some c ∧
      isPySpace c = false ∧ decide (c = '/') = isd := by
  cases isd with
  | true =>
    refine ⟨'/', ?_, by decide, by decide⟩
    have h₂ : '-' :: ' ' :: (nm ++ (if true then ['/'] else [])) =
        ('-' :: ' ' :: nm) ++ ['/'] := by simp
    rw [h₂, List.getLast?_concat]
  | false =>
    rcases hl : nm.getLast? with _ | c
    · exact absurd (List.getLast?_eq_none_iff.mp hl) (good_ne_nil hg)
    · refine ⟨c, ?_, good_last hg c hl, ?_⟩
      · have h₂ : '-' :: ' ' :: (nm ++ (if false then ['/'] else [])) =
            ['-', ' '] ++ nm := by simp
        rw [h₂, List.getLast?_append_of_ne_nil _ (good_ne_nil hg)]
        exact hl
      · have := (good_all hg c (List.mem_of_getLast?_eq_some hl)).2
        simp [this]

theorem pyStrip_entry {nm : List Char} (hg : goodNameCh nm = true) (d : Nat) (isd : Bool) :
    pyStripCh (entryCh d nm isd) = '-' :: ' ' :: (nm ++ (if isd then ['/'] else [])) := by
  rw [entryCh, pyStripCh]
  rw [dropWhile_replicate_cons (2 * d) _ (by decide) (by decide)]
  obtain ⟨c, hc, hcs, _⟩ := entry_getLast hg isd
  exact rstrip_noop _ (fun c₂ hc₂ => by rw [hc] at hc₂; cases hc₂; exact hcs)

theorem rstripSlash_name {nm : List Char} (hg : goodNameCh nm = true) (isd : Bool) :
    rstripSlash (nm ++ (if isd then ['/'] else [])) = nm := by
  have hlast : ∀ c, nm.getLast? = some c → decide (c = '/') = false := by
    intro c hc
    have := (good_all hg c (List.mem_of_getLast?_eq_some hc)).2
    simp [this]
  cases isd with
  | true =>
    show rstripSlash (nm ++ ['/']) = nm
    rw [rstripSlash, List.reverse_append]
    show (('/' :: nm.reverse).dropWhile (fun c => c = '/')).reverse = nm
    show (nm.reverse.dropWhile (fun c => c = '/')).reverse = nm
    exact rstrip_noop nm hlast
  | false =>
    show rstripSlash (nm ++ []) = nm
    rw [List.append_nil, rstripSlash]
    exact rstrip_noop nm hlast

theorem lineName_entry {nm : List Char} (hg : goodNameCh nm = true) (d : Nat) (isd : Bool) :
    lineName (entryCh d nm isd) = nm := by
  rw [lineName, pyStrip_entry hg d isd]
  have h₁ : lstripDashSpace ('-' :: ' ' :: (nm ++ (if isd then ['/'] else []))) =
      (nm ++ (if isd then ['/'] else [])).dropWhile (fun c => c = '-' || c = ' ') := rfl
  rw [h₁, dropWhile_head_false, rstripSlash_name hg isd]
  intro c hc
  rcases hnm : nm with _ | ⟨c₀, nm₂⟩
  · exact absurd hnm (good_ne_nil hg)
  · subst hnm
    simp only [List.cons_append, List.head?_cons, Option.some.injEq] at hc
    obtain ⟨hsp, hdash⟩ := good_head hg c₀ rfl
    rw [← hc]
    have hspace : c₀ ≠ ' ' := by
      intro he
      rw [he] at hsp
      exact absurd hsp (by decide)
    simp [hdash, hspace]

theorem lineIsDir_entry {nm : List Char} (hg : goodNameCh nm = true) (d : Nat) (isd : Bool) :
    lineIsDir (entryCh d nm isd) = isd := by
  rw [lineIsDir, pyStrip_entry hg d isd]
  obtain ⟨c, hc, _, hslash⟩ := entry_getLast hg isd
  rw [endsWithSlash, hc]
  exact hslash

theorem lineDepth_entry (nm : List Char) (d : Nat) (isd : Bool) :
    lineDepth (entryCh d nm isd) = d := by
  rw [lineDepth, countLeadingSpaces, entryCh,
    takeWhile_replicate_cons (2 * d) _ (by decide) (by decide)]
  simp only [List.length_replicate]
  omega

theorem rootMatch_entry {nm : List Char} (hg : goodNameCh nm = true) (isd : Bool) :
    rootMatch (entryCh 0 nm isd) = some (nm ++ (if isd then ['/'] else [])) := by
  rcases hnm : nm with _ | ⟨c₀, nm₂⟩
  · exact absurd hnm (good_ne_nil hg)
  · rfl

theorem entry_no_break {nm : List Char} (hg : goodNameCh nm = true) (d : Nat) (isd : Bool) :
    ∀ c ∈ entryCh d nm isd, isLineBreak c = false := by
  intro c hc
  rw [entryCh] at hc
  rcases List.mem_append.mp hc with hrep | hc₂
  · rw [List.eq_of_mem_replicate hrep]; decide
  · simp only [List.mem_cons] at hc₂
    rcases hc₂ with rfl | rfl | hc₃
    · decide
    · decide
    · rcases List.mem_append.mp hc₃ with hn | hs
      · exact (good_all hg c hn).1
      · cases isd with
        | true =>
          simp only [if_pos, List.mem_singleton] at hs
          subst hs
          decide
        | false => simp at hs

theorem entry_ne_nil (nm : List Char) (d : Nat) (isd : Bool) :
    entryCh d nm isd ≠ [] := by
  rw [entryCh]
  simp

theorem entry_strip_ne {nm : List Char} (hg : goodNameCh nm = true) (d : Nat) (isd : Bool) :
    pyStripCh (entryCh d nm isd) ≠ [] := by
  rw [pyStrip_entry hg d isd]
  simp

/-- Every serialized line of a good tree is the entry line of some good name. -/
theorem linesCh_shape :
    ∀ t, goodTreeB t = true → ∀ d, ∀ l ∈ linesCh t d,
      ∃ d₂ nm₂ isd₂, l = entryCh d₂ nm₂ isd₂ ∧ goodNameCh nm₂ = true := by
  refine TreeNode.indOn (fun n p isd s cs ih => ?_)
  intro hg d l hl
  rw [goodTreeB, Bool.and_eq_true, goodTreeListB_eq_all, List.all_eq_true] at hg
  rw [linesCh_unfold] at hl
  rcases List.mem_cons.mp hl with rfl | hl₂
  · exact ⟨d, n.data, isd, rfl, hg.1⟩
  · obtain ⟨c, hc, hlc⟩ := List.mem_flatMap.mp hl₂
    exact ih c hc (hg.2 c hc) (d + 1) l hlc

/-! ### `splitlines` of the joined serializer output -/

theorem splitlinesGo_cons_nonbreak (c : Char) (rest acc : List Char)
    (hc : isLineBreak c = false) :
    splitlinesGo (c :: rest) acc = splitlinesGo rest (c :: acc) := by
  have hcr : c ≠ '\r' := by
    intro he
    rw [he] at hc
    exact absurd hc (by decide)
  rw [splitlinesGo.eq_def]
  split
  · simp_all
  · rename_i heq
    rw [List.cons_eq_cons] at heq
    exact absurd heq.1 hcr
  · rename_i c₂ rest₂ hov heq
    rw [List.cons_eq_cons] at heq
    obtain ⟨rfl, rfl⟩ := heq.symm
    rw [if_neg (by simp [hc])]

theorem splitlinesGo_cons_newline (rest acc : List Char) :
    splitlinesGo ('\n' :: rest) acc = acc.reverse :: splitlinesGo rest [] := rfl

theorem splitlinesGo_append_nonbreak :
    ∀ (l rest acc : List Char), (∀ c ∈ l, isLineBreak c = false) →
      splitlinesGo (l ++ rest) acc = splitlinesGo rest (l.reverse ++ acc)
  | [], rest, acc, _ => by simp
  | c :: l₂, rest, acc, h => by
    rw [List.cons_append,
      splitlinesGo_cons_nonbreak c _ acc (h c (List.mem_cons_self _ _)),
      splitlinesGo_append_nonbreak l₂ rest (c :: acc)
        (fun c₂ hc₂ => h c₂ (List.mem_cons_of_mem _ hc₂))]
    simp

theorem splitlines_joinNl :
    ∀ (ls : List (List Char)),
      (∀ l ∈ ls, l ≠ [] ∧ ∀ c ∈ l, isLineBreak c = false) → ls ≠ [] →
      splitlinesCh (joinNl ls) = ls
  | [], _, hne => absurd rfl hne
  | [l], h, _ => by
    obtain ⟨hl, hbf⟩ := h l (List.mem_cons_self _ _)
    rw [joinNl, splitlinesCh]
    have := splitlinesGo_append_nonbreak l [] [] hbf
    rw [List.append_nil] at this
    rw [this, splitlinesGo]
    simp [hl]
  | l :: l₂ :: ls₂, h, _ => by
    obtain ⟨hl, hbf⟩ := h l (List.mem_cons_self _ _)
    have hjoin : joinNl (l :: l₂ :: ls₂) = l ++ '\n' :: joinNl (l₂ :: ls₂) := rfl
    rw [hjoin, splitlinesCh,
      splitlinesGo_append_nonbreak l _ [] hbf,
      List.append_nil, splitlinesGo_cons_newline,
      List.reverse_reverse]
    have hrec := splitlines_joinNl (l₂ :: ls₂)
      (fun l₃ hl₃ => h l₃ (List.mem_cons_of_mem _ hl₃)) (by simp)
    rw [splitlinesCh] at hrec
    rw [hrec]

/-! ### The parsed counterpart of a serialized subtree -/

/-- The frame a fully parsed subtree leaves on the stack: the node's name and
kind at its recorded depth, with all children already attached. -/
def mkFrame (t : TreeNode) (d : Nat) : MdFrame :=
  ⟨d, t.name, t.is_dir, (t.children.map normalizeTree).reverse⟩

theorem closeFrame_mkFrame (t : TreeNode) (d : Nat) :
    closeFrame (mkFrame t d) = normalizeTree t := by
  rcases t with ⟨n, p, isd, s, cs⟩
  simp [mkFrame, closeFrame, normalizeTree, normalizeList_eq_map,
    TreeNode.name, TreeNode.is_dir, TreeNode.children]

theorem popGE_top_lt (d : Nat) (f : MdFrame) (S : List MdFrame)
    (hf : f.depth < d) : popGE d (f :: S) = some (f :: S) := by
  cases S with
  | nil => rw [popGE, popGEAux, if_neg (by omega)]
  | cons g rs => rw [popGE, popGEAux, if_neg (by omega)]

/-- The continuation constraint: the next line, if any, does not descend
strictly below depth `d`. -/
def ContOk (ls : List (List Char)) (d : Nat) : Prop :=
  ls = [] ∨ ∃ l ls₂, ls = l :: ls₂ ∧ lineDepth l ≤ d

theorem ContOk_mono {ls : List (List Char)} {d e : Nat} (h : ContOk ls d)
    (hde : d ≤ e) : ContOk ls e := by
  rcases h with rfl | ⟨l, ls₂, rfl, hl⟩
  · exact Or.inl rfl
  · exact Or.inr ⟨l, ls₂, rfl, by omega⟩

/-- A completed frame sitting on the stack may be folded into the frame
below as long as the next line does not descend below it: the first popping
step of both sides coincides, and so does the final flush. -/
theorem md_absorb (ls₀ : List (List Char)) (f g : MdFrame) (S : List MdFrame)
    (hls : ContOk ls₀ f.depth) :
    processLines ls₀ (f :: g :: S) =
      processLines ls₀ (frameAddChild g (closeFrame f) :: S) := by
  rcases hls with rfl | ⟨l, ls₂, rfl, hd⟩
  · rfl
  · simp only [processLines]
    have hpop : popGE (lineDepth l) (f :: g :: S) =
        popGE (lineDepth l) (frameAddChild g (closeFrame f) :: S) := by
      show popGEAux _ f (g :: S) = popGEAux _ (frameAddChild g (closeFrame f)) S
      rw [popGEAux, if_pos hd]
    rw [hpop]

/-- Processing the serialized block of `t` at depth `d` on top of a
shallower frame is the same as pushing `t`'s completed frame. -/
def MdMain (t : TreeNode) : Prop :=
  goodTreeB t = true →
  ∀ (d : Nat) (f₀ : MdFrame) (S : List MdFrame) (ls : List (List Char)),
    f₀.depth < d → ContOk ls d →
    processLines (linesCh t d ++ ls) (f₀ :: S) =
      processLines ls (mkFrame t d :: f₀ :: S)

/-- Folding a sibling block: the serialized blocks of `cs` at depth `d+1`,
processed on a frame of depth `d`, attach the normalised children in order. -/
theorem md_fold :
    ∀ (cs : List TreeNode), (∀ c ∈ cs, MdMain c ∧ goodTreeB c = true) →
      ∀ (d : Nat) (F : MdFrame) (S : List MdFrame) (ls : List (List Char)),
      F.depth = d → ContOk ls d →
      processLines (cs.flatMap (fun c => linesCh c (d + 1)) ++ ls) (F :: S) =
        processLines ls
          ({F with childrenRev := (cs.map normalizeTree).reverse ++ F.childrenRev} :: S)
  | [], _, d, F, S, ls, _, _ => by simp
  | c :: cs₂, hcs, d, F, S, ls, hF, hls => by
    obtain ⟨hmc, hgc⟩ := hcs c (List.mem_cons_self _ _)
    have hcs₂ := fun c₂ h₂ => hcs c₂ (List.mem_cons_of_mem _ h₂)
    rw [List.flatMap_cons, List.append_assoc]
    have hcont : ContOk (cs₂.flatMap (fun c => linesCh c (d + 1)) ++ ls) (d + 1) := by
      cases cs₂ with
      | nil =>
        simp only [List.flatMap_nil, List.nil_append]
        exact ContOk_mono hls (by omega)
      | cons c₃ cs₃ =>
        right
        have hg₃ : goodTreeB c₃ = true := (hcs₂ c₃ (List.mem_cons_self _ _)).2
        rcases c₃ with ⟨n₃, p₃, isd₃, s₃, cs₄⟩
        rw [goodTreeB, Bool.and_eq_true] at hg₃
        rw [List.flatMap_cons, linesCh_unfold, List.cons_append, List.cons_append]
        exact ⟨_, _, rfl, by rw [lineDepth_entry]⟩
    rw [hmc hgc (d + 1) F S _ (by omega) hcont]
    rw [md_absorb _ (mkFrame c (d + 1)) F S (by
      show ContOk _ (d + 1)
      exact hcont)]
    rw [closeFrame_mkFrame]
    rw [md_fold cs₂ hcs₂ d (frameAddChild F (normalizeTree c)) S ls
      (by simpa [frameAddChild] using hF) hls]
    congr 2
    simp [frameAddChild, List.append_assoc]

theorem md_main : ∀ t, MdMain t := by
  refine TreeNode.indOn (fun n p isd s cs ih => ?_)
  intro hg d f₀ S ls hf₀ hls
  rw [goodTreeB, Bool.and_eq_true, goodTreeListB_eq_all, List.all_eq_true] at hg
  have hgn : goodNameCh n.data = true := hg.1
  rw [linesCh_unfold, List.cons_append]
  simp only [processLines]
  rw [lineDepth_entry, popGE_top_lt d f₀ S hf₀]
  simp only
  rw [lineName_entry hgn, lineIsDir_entry hgn, mk_data]
  have := md_fold cs (fun c hc => ⟨ih c hc, hg.2 c hc⟩) d ⟨d, n, isd, []⟩ (f₀ :: S) ls
    rfl hls
  rw [this]
  congr 2
  rw [mkFrame]
  simp [TreeNode.name, TreeNode.is_dir, TreeNode.children]

/-- C2 amended.  Markdown round trip for trees whose names survive the
grammar: names must be non-empty, contain no `'/'` and no line-break
character, start with neither whitespace nor `'-'`, and not end in
whitespace (the original claim's conditions plus the ones the
counterexample family forces).  Then parsing the serialized markdown
rebuilds the same name, `is_dir` and ordered children shape at every node —
exactly `normalizeTree`: `path` becomes the bare name and `size` is gone. -/
theorem markdown_round_trip_amended (t : TreeNode) (h : goodTreeB t = true) :
    parse_markdown_to_tree (serialize_to_markdown t true) = some (normalizeTree t) := by
  have hshape := linesCh_shape t h 0
  have hprops : ∀ l ∈ linesCh t 0, l ≠ [] ∧ ∀ c ∈ l, isLineBreak c = false := by
    intro l hl
    obtain ⟨d₂, nm₂, isd₂, rfl, hg₂⟩ := hshape l hl
    exact ⟨entry_ne_nil nm₂ d₂ isd₂, entry_no_break hg₂ d₂ isd₂⟩
  rcases ht : t with ⟨n, p, isd, s, cs⟩
  rw [ht] at h
  rw [goodTreeB, Bool.and_eq_true, goodTreeListB_eq_all, List.all_eq_true] at h
  have hgn : goodNameCh n.data = true := h.1
  have hlines : contentLines (serialize_to_markdown (TreeNode.mk n p isd s cs) true) =
      linesCh (TreeNode.mk n p isd s cs) 0 := by
    rw [contentLines, serialize_to_markdown]
    show (splitlinesCh (joinNl (linesCh (TreeNode.mk n p isd s cs) 0))).filter _ = _
    rw [splitlines_joinNl _ (ht ▸ hprops) (by rw [linesCh_unfold]; simp)]
    refine List.filter_eq_self.mpr ?_
    intro l hl
    obtain ⟨d₂, nm₂, isd₂, rfl, hg₂⟩ := (ht ▸ hshape) l hl
    simpa using entry_strip_ne hg₂ d₂ isd₂
  rw [parse_markdown_to_tree, hlines, linesCh_unfold]
  simp only
  rw [rootMatch_entry hgn]
  simp only
  rw [rstripSlash_name hgn, mk_data]
  have hisd : endsWithSlash (pyStripCh (entryCh 0 n.data isd)) = isd :=
    lineIsDir_entry hgn 0 isd
  rw [hisd]
  have := md_fold cs (fun c hc => ⟨md_main c, h.2 c hc⟩) 0 ⟨0, n, isd, []⟩ [] []
    rfl (Or.inl rfl)
  rw [List.append_nil] at this
  rw [this]
  simp [processLines, flushStack, flushAux, closeFrame, normalizeTree,
    normalizeList_eq_map]

/-- Witness for `markdown_round_trip_amended` at a two-level tree. -/
theorem markdown_round_trip_amended_witness :
    goodTreeB (TreeNode.mk "root" "/r" true none
      [TreeNode.mk "f.txt" "/r/f.txt" false (some 3) [],
       TreeNode.mk "sub" "/r/sub" true none
         [TreeNode.mk "g.md" "/r/sub/g.md" false (some 5) []]]) = true ∧
    parse_markdown_to_tree (serialize_to_markdown (TreeNode.mk "root" "/r" true none
      [TreeNode.mk "f.txt" "/r/f.txt" false (some 3) [],
       TreeNode.mk "sub" "/r/sub" true none
         [TreeNode.mk "g.md" "/r/sub/g.md" false (some 5) []]]) true) =
      some (normalizeTree (TreeNode.mk "root" "/r" true none
        [TreeNode.mk "f.txt" "/r/f.txt" false (some 3) [],
         TreeNode.mk "sub" "/r/sub" true none
           [TreeNode.mk "g.md" "/r/sub/g.md" false (some 5) []]])) :=
  ⟨by decide, markdown_round_trip_amended _ (by decide)⟩

end Treemark
